import Mathlib

/-!
Shallow embedding of `src/main.py` of the Simple-Sorter repository.

The Python program is a small FastAPI service that runs the MeCab morphological
analyzer on Korean text, buckets the resulting tokens into nouns and
verbs/adjectives, and returns frequency-ranked lists.  The pure core
(`mecab_parse`'s output handling, `filter_and_bucket`, `freq_list`,
`analyze_api`'s composition) is translated here definition by definition.

Modelling notes:
* Subprocess invocations of the `mecab` binary are represented by a
  `ProcResult` record (return code, stdout, stderr); a `MecabEnv` holds the
  outcome each of the two invocation modes (`-O csv` and `-F` tsv) would
  produce for the request's text.
* Python's `csv.reader` is modelled for quote-free input: each line is split
  on commas (an empty line yields the empty row, which the source skips).
  All analyzer outputs exercised here are quote-free, newline-separated text.
* Python's string methods `strip`, `upper`, `startswith`, `endswith` and
  `split` are modelled by the character-list functions `strip`, `upper`,
  `startsWithStr`, `endsWithStr`, `strSplitOn` below (the tags compared are
  ASCII; stripping covers ASCII whitespace).
* Python's `sorted(..., key=lambda x: x[1], reverse=True)` is a stable
  descending sort by count; it is modelled by the stable insertion sort
  `sortDesc`, which computes the same ordering (descending by count, ties in
  first-seen order) on every input.
* Python `int` is modelled by `Int` where a request-supplied value flows into
  a comparison (`min_freq` / `min_count`).
-/

/-- Token record produced by `mecab_parse` (the Python dict with keys
`surface`, `pos`, `lemma`). -/
structure Token where
  surface : String
  pos : String
  «lemma» : String
  deriving DecidableEq, Repr

/-- Result of one subprocess run of the mecab binary (`subprocess.CompletedProcess`). -/
structure ProcResult where
  returncode : Int
  stdout : String
  stderr : String
  deriving DecidableEq, Repr

/-- Outcome the two mecab invocation modes would produce for the request text:
`csv` is the result of running `mecab -O csv`, `tsv` the result of running
`mecab -F "%m\t%f[0]\t%f[6]\n"`. -/
structure MecabEnv where
  csv : ProcResult
  tsv : ProcResult
  deriving DecidableEq, Repr

/-- Membership test of the character class `[가-힣]` used by `re.search` in
`filter_and_bucket` (Hangul syllable block U+AC00 to U+D7A3). -/
def isHangulSyllable (c : Char) : Bool :=
  0xAC00 ≤ c.toNat && c.toNat ≤ 0xD7A3

/-- Translation of `re.search(r"[가-힣]", s)`: does `s` contain a Hangul
syllable character? -/
def hasHangul (s : String) : Bool :=
  s.data.any isHangulSyllable

/-- The single stopword set `STOPWORDS` of `src/main.py` (line 188). -/
def STOPWORDS : List String :=
  ["이다", "하다", "없다", "있다", "보다", "되다", "들다",
   "자다", "말다", "오다", "가다", "주다", "되어다"]

/-- Tag values excluded exactly (`EXCLUDE_EXACT` in `filter_and_bucket`). -/
def EXCLUDE_EXACT : List String := ["UNKNOWN"]

/-- Tag heads excluded by prefix match (the tuple named
EXCLUDE_POS_PREFIX in `filter_and_bucket`; renamed here only because of a
lexical restriction on Lean identifiers in this development). -/
def excludePos : List String :=
  ["J", "E", "SF", "SP", "SS", "SE", "SO", "SW", "X"]

/-- Python `str.strip()` on ASCII whitespace: drop leading and trailing
whitespace characters (modelled over the character list so that it computes
by structural recursion). -/
def strip (s : String) : String :=
  String.mk (((s.data.dropWhile Char.isWhitespace).reverse.dropWhile
    Char.isWhitespace).reverse)

/-- Python `str.upper()` for the ASCII tag strings compared by the classifier. -/
def upper (s : String) : String :=
  String.mk (s.data.map Char.toUpper)

/-- Python `str.startswith(p)` / the tuple form used on tag strings. -/
def startsWithStr (s p : String) : Bool :=
  List.isPrefixOf p.data s.data

/-- Python `str.endswith(p)`. -/
def endsWithStr (s p : String) : Bool :=
  List.isSuffixOf p.data s.data

/-- Split a character list at every occurrence of `sep` (Python
`str.split(sep)` for a one-character separator, which is the only form the
source uses: newline, comma, tab). -/
def splitChar (sep : Char) : List Char → List (List Char)
  | [] => [[]]
  | c :: cs =>
    match splitChar sep cs with
    | [] => [[]]
    | g :: gs => if c = sep then [] :: g :: gs else (c :: g) :: gs

/-- Python `str.split(sep)` for a one-character separator, as strings. -/
def strSplitOn (s : String) (sep : Char) : List String :=
  (splitChar sep s.data).map String.mk

/-- The lemma value `filter_and_bucket` works on for a token:
`(t.get("lemma") or t.get("surface", "")).strip()`. -/
def procLemma (t : Token) : String :=
  strip (if t.«lemma» = "" then t.surface else t.«lemma»)

/-- The uppercased stripped tag: `pos_u = (t.get("pos") or "").strip().upper()`. -/
def posU (t : Token) : String :=
  upper (strip t.pos)

/-- Korean dictionary-form repair for verb/adjective lemmas (lines 237-239 of
`src/main.py`): append the suffix 다 when the lemma contains a Hangul syllable
and does not already end in 다. -/
def basicForm (t : Token) : String :=
  if hasHangul (procLemma t) && !(endsWithStr (procLemma t) "다") then
    procLemma t ++ "다"
  else
    procLemma t

/-- Outcome of one iteration of the `filter_and_bucket` loop for one token. -/
inductive BucketChoice where
  | noun (s : String)
  | pred (s : String)
  | skip
  deriving DecidableEq, Repr

/-- One iteration of the `filter_and_bucket` loop body (lines 209-244 of
`src/main.py`): which bucket, if any, receives which string for token `t`. -/
def classifyToken (t : Token) (min_len : Nat) : BucketChoice :=
  if procLemma t = "" ∨ procLemma t = "*" then BucketChoice.skip
  else if posU t ∈ EXCLUDE_EXACT ∨ excludePos.any (fun p => startsWithStr (posU t) p) then
    BucketChoice.skip
  else if procLemma t ∈ STOPWORDS then BucketChoice.skip
  else if startsWithStr (posU t) "NN" ∨ posU t ∈ ["NP", "NR", "SL", "SH"] then
    if min_len ≤ (procLemma t).length then BucketChoice.noun (procLemma t)
    else BucketChoice.skip
  else if startsWithStr (posU t) "VV" ∨ startsWithStr (posU t) "VA" then
    if basicForm t ∈ STOPWORDS then BucketChoice.skip
    else if min_len ≤ (basicForm t).length then BucketChoice.pred (basicForm t)
    else BucketChoice.skip
  else BucketChoice.skip

/-- Translation of `filter_and_bucket(tokens, min_len)`: the loop appends, in
input order, each accepted lemma to the `nouns` respectively `v_adj` list. -/
def filter_and_bucket : List Token → Nat → List String × List String
  | [], _ => ([], [])
  | t :: ts, min_len =>
    match classifyToken t min_len with
    | BucketChoice.noun s =>
      (s :: (filter_and_bucket ts min_len).1, (filter_and_bucket ts min_len).2)
    | BucketChoice.pred s =>
      ((filter_and_bucket ts min_len).1, s :: (filter_and_bucket ts min_len).2)
    | BucketChoice.skip => filter_and_bucket ts min_len

/-- Model of `csv.reader` on one quote-free line: split on commas; an empty
line yields the empty row (which the source's `if not row: continue` skips). -/
def parseCsvRow (line : String) : List String :=
  if line = "" then [] else strSplitOn line ','

/-- Per-row token construction of the csv branch of `mecab_parse`
(lines 152-164 of `src/main.py`). -/
def csvRowToken (row : List String) : Option Token :=
  match row with
  | [] => none
  | _ :: _ =>
    let surface := strip (row.headD "")
    let pos := if 1 < row.length then strip (row.getD 1 "") else ""
    let lem :=
      if 7 < row.length ∧ row.getD 7 "" ≠ "*" then strip (row.getD 7 "")
      else surface
    if surface = "" then none else some ⟨surface, pos, lem⟩

/-- Csv branch of `mecab_parse`: tokens collected over the rows. -/
def parseCsvLines (lines : List String) : List Token :=
  lines.filterMap (fun l => csvRowToken (parseCsvRow l))

/-- Per-line token construction of the tsv branch of `mecab_parse`
(lines 168-183 of `src/main.py`): skip empty lines and the EOS marker,
split on tabs, require at least two fields. -/
def tsvLineToken (line : String) : Option Token :=
  if line = "" ∨ line = "EOS" then none
  else
    let parts := strSplitOn line '\t'
    if parts.length < 2 then none
    else
      let surface := strip (parts.headD "")
      let pos := strip (parts.getD 1 "")
      let lem :=
        if 2 < parts.length ∧ strip (parts.getD 2 "") ≠ "*" then strip (parts.getD 2 "")
        else surface
      if surface = "" then none else some ⟨surface, pos, lem⟩

/-- Tsv branch of `mecab_parse`: tokens collected over the lines. -/
def parseTsvLines (lines : List String) : List Token :=
  lines.filterMap tsvLineToken

/-- Translation of `_mecab_run_csv`: fail (raise) when the process exited
nonzero or printed only whitespace, otherwise return its stdout. -/
def mecab_run_csv (env : MecabEnv) : Except String String :=
  if env.csv.returncode ≠ 0 ∨ strip env.csv.stdout = "" then
    Except.error ("csv-failed: code=" ++ toString env.csv.returncode ++ "\n" ++ env.csv.stderr)
  else Except.ok env.csv.stdout

/-- Translation of `_mecab_run_tsv`: same failure condition on the tsv-mode run. -/
def mecab_run_tsv (env : MecabEnv) : Except String String :=
  if env.tsv.returncode ≠ 0 ∨ strip env.tsv.stdout = "" then
    Except.error ("tsv-failed: code=" ++ toString env.tsv.returncode ++ "\n" ++ env.tsv.stderr)
  else Except.ok env.tsv.stdout

/-- Translation of `mecab_parse`: try csv mode; on its failure try tsv mode
once; a tsv failure propagates to the caller as an error. -/
def mecab_parse (env : MecabEnv) : Except String (List Token) :=
  match mecab_run_csv env with
  | Except.ok raw => Except.ok (parseCsvLines (strSplitOn raw '\n'))
  | Except.error _ =>
    match mecab_run_tsv env with
    | Except.ok raw => Except.ok (parseTsvLines (strSplitOn raw '\n'))
    | Except.error e => Except.error e

/-- Dict-style counter update: `counter[w] = counter.get(w, 0) + 1` on an
insertion-ordered association list (Python dicts preserve insertion order). -/
def bump : List (String × Nat) → String → List (String × Nat)
  | [], w => [(w, 1)]
  | (k, n) :: rest, w =>
    if k = w then (k, n + 1) :: rest else (k, n) :: bump rest w

/-- The counter built by the loop in `freq_list`. -/
def counterOf (words : List String) : List (String × Nat) :=
  words.foldl bump []

/-- Stable descending insertion by count: the new element goes after every
strictly larger count and before every count less than or equal to its own. -/
def insertDesc (x : String × Nat) : List (String × Nat) → List (String × Nat)
  | [] => [x]
  | y :: ys => if x.2 < y.2 then y :: insertDesc x ys else x :: y :: ys

/-- Stable sort, descending by count: model of Python's
`sorted(..., key=lambda x: x[1], reverse=True)` (identical output by
stability plus descending order). -/
def sortDesc : List (String × Nat) → List (String × Nat)
  | [] => []
  | x :: xs => insertDesc x (sortDesc xs)

/-- Translation of `freq_list(words, min_count)`: count occurrences, keep
entries with count at least `min_count`, sort descending by count. -/
def freq_list (words : List String) (min_count : Int) : List (String × Nat) :=
  sortDesc ((counterOf words).filter (fun p => decide (min_count ≤ (p.2 : Int))))

/-- Translation of the `/analyze` endpoint body `analyze_api`: parse, bucket
with `min_len = 2`, aggregate the two buckets with the caller's `min_freq`.
There is no other step; in particular no fallback extraction is performed. -/
def analyze_api (env : MecabEnv) (min_freq : Int) :
    Except String (List (String × Nat) × List (String × Nat)) :=
  match mecab_parse env with
  | Except.error e => Except.error e
  | Except.ok tokens =>
    Except.ok
      (freq_list (filter_and_bucket tokens 2).1 min_freq,
       freq_list (filter_and_bucket tokens 2).2 min_freq)

/-- Helper for the spec-modelled fallback extractor: collect maximal runs of
Hangul syllable characters; `acc` is the reversed run in progress. -/
def hangulRunsAux : List Char → List Char → List String
  | [], acc => if acc.isEmpty then [] else [String.mk acc.reverse]
  | c :: cs, acc =>
    if isHangulSyllable c then hangulRunsAux cs (c :: acc)
    else if acc.isEmpty then hangulRunsAux cs []
    else String.mk acc.reverse :: hangulRunsAux cs []

/-- Maximal runs of Hangul syllable characters of a text, in order. -/
def hangulRuns (text : String) : List String :=
  hangulRunsAux text.data []

/-- Modelled from the spec: the FallbackExtractor component (spec section 4.5)
is absent from `src/main.py` (its `analyze_api` performs no fallback); this
definition follows the spec's words: scan the raw input for maximal runs of
Hangul syllable characters of length at least `min_len` and reject candidates
present in the predicate stopword set. -/
def fallback_extract (text : String) (min_len : Nat) : List String :=
  (hangulRuns text).filter (fun r => decide (min_len ≤ r.length ∧ r ∉ STOPWORDS))

/-! ### Helper lemmas about the counter dictionary of `freq_list` -/

/-- Lookup in the counter association list (`counter.get(w, 0)`). -/
def getCount : List (String × Nat) → String → Nat
  | [], _ => 0
  | (k, n) :: rest, w => if k = w then n else getCount rest w

/-- Keys of the counter, in insertion order (`counter.keys()`). -/
def keysOf (c : List (String × Nat)) : List String := c.map Prod.fst

theorem getCount_bump_self (c : List (String × Nat)) (w : String) :
    getCount (bump c w) w = getCount c w + 1 := by
  induction c with
  | nil => simp [bump, getCount]
  | cons p rest ih =>
    obtain ⟨k, n⟩ := p
    by_cases hk : k = w
    · subst hk; simp [bump, getCount]
    · simp [bump, getCount, hk, ih]

theorem getCount_bump_ne (c : List (String × Nat)) (v w : String) (hvw : v ≠ w) :
    getCount (bump c v) w = getCount c w := by
  induction c with
  | nil => simp [bump, getCount, hvw]
  | cons p rest ih =>
    obtain ⟨k, n⟩ := p
    by_cases hk : k = v
    · subst hk
      have hkw : ¬k = w := fun h => hvw h
      simp [bump, getCount, hkw]
    · by_cases hw : k = w
      · subst hw; simp [bump, getCount, hk]
      · simp [bump, getCount, hk, hw, ih]

theorem mem_keysOf_bump (c : List (String × Nat)) (v w : String) :
    w ∈ keysOf (bump c v) ↔ w = v ∨ w ∈ keysOf c := by
  induction c with
  | nil => simp [bump, keysOf]
  | cons p rest ih =>
    obtain ⟨k, n⟩ := p
    by_cases hk : k = v
    · subst hk
      have hb : bump ((k, n) :: rest) k = (k, n + 1) :: rest := by simp [bump]
      rw [hb]
      simp only [keysOf, List.map_cons, List.mem_cons]
      tauto
    · have hb : bump ((k, n) :: rest) v = (k, n) :: bump rest v := by simp [bump, hk]
      rw [hb]
      simp only [keysOf, List.map_cons, List.mem_cons] at ih ⊢
      rw [ih]
      tauto

theorem nodup_keysOf_bump (c : List (String × Nat)) (v : String)
    (h : (keysOf c).Nodup) : (keysOf (bump c v)).Nodup := by
  induction c with
  | nil => simp [bump, keysOf]
  | cons p rest ih =>
    obtain ⟨k, n⟩ := p
    simp only [keysOf, List.map_cons, List.nodup_cons] at h
    by_cases hk : k = v
    · subst hk
      have hb : bump ((k, n) :: rest) k = (k, n + 1) :: rest := by simp [bump]
      rw [hb]
      simp only [keysOf, List.map_cons, List.nodup_cons]
      exact h
    · have hrest : (keysOf (bump rest v)).Nodup := ih h.2
      have hb : bump ((k, n) :: rest) v = (k, n) :: bump rest v := by simp [bump, hk]
      rw [hb]
      simp only [keysOf, List.map_cons, List.nodup_cons]
      refine ⟨?_, hrest⟩
      intro hmem
      rcases (mem_keysOf_bump rest v k).mp hmem with h1 | h1
      · exact hk h1
      · exact h.1 h1

theorem getCount_foldl_bump (ws : List String) (w : String) :
    ∀ c, getCount (ws.foldl bump c) w = getCount c w + ws.count w := by
  induction ws with
  | nil => intro c; simp [getCount]
  | cons u us ih =>
    intro c
    by_cases hu : u = w
    · subst hu
      simp [List.foldl_cons, ih, getCount_bump_self, List.count_cons]
      omega
    · simp [List.foldl_cons, ih, getCount_bump_ne c u w hu, List.count_cons, hu]

theorem mem_keysOf_foldl_bump (ws : List String) (w : String) :
    ∀ c, w ∈ keysOf (ws.foldl bump c) ↔ w ∈ keysOf c ∨ w ∈ ws := by
  induction ws with
  | nil => intro c; simp
  | cons u us ih =>
    intro c
    simp [List.foldl_cons, ih, mem_keysOf_bump]
    tauto

theorem nodup_keysOf_foldl_bump (ws : List String) :
    ∀ c, (keysOf c).Nodup → (keysOf (ws.foldl bump c)).Nodup := by
  induction ws with
  | nil => intro c h; simpa using h
  | cons u us ih =>
    intro c h
    exact ih _ (nodup_keysOf_bump c u h)

theorem nodup_keysOf_counterOf (ws : List String) :
    (keysOf (counterOf ws)).Nodup :=
  nodup_keysOf_foldl_bump ws [] (by simp [keysOf])

theorem getCount_counterOf (ws : List String) (w : String) :
    getCount (counterOf ws) w = ws.count w := by
  simpa [getCount] using getCount_foldl_bump ws w []

theorem mem_keysOf_counterOf (ws : List String) (w : String) :
    w ∈ keysOf (counterOf ws) ↔ w ∈ ws := by
  simpa [keysOf] using mem_keysOf_foldl_bump ws w []

theorem mem_assoc_iff (c : List (String × Nat)) (h : (keysOf c).Nodup)
    (w : String) (n : Nat) :
    (w, n) ∈ c ↔ w ∈ keysOf c ∧ getCount c w = n := by
  induction c with
  | nil => simp [keysOf, getCount]
  | cons p rest ih =>
    obtain ⟨k, m⟩ := p
    simp only [keysOf, List.map_cons, List.nodup_cons] at h
    by_cases hk : k = w
    · subst hk
      simp only [keysOf, List.mem_cons, List.map_cons, getCount, if_pos rfl]
      constructor
      · rintro (heq | hmem)
        · cases heq; simp
        · exact absurd (List.mem_map_of_mem Prod.fst hmem) h.1
      · rintro ⟨_, rfl⟩; simp
    · simp only [List.mem_cons, keysOf, List.map_cons, getCount, if_neg hk]
      rw [ih h.2]
      simp only [keysOf]
      constructor
      · rintro (heq | hmem)
        · cases heq; exact absurd rfl hk
        · tauto
      · rintro ⟨hk2 | hmem, hc⟩
        · exact absurd hk2.symm hk
        · tauto

theorem mem_counterOf (ws : List String) (w : String) (n : Nat) :
    (w, n) ∈ counterOf ws ↔ w ∈ ws ∧ n = ws.count w := by
  rw [mem_assoc_iff _ (nodup_keysOf_counterOf ws), mem_keysOf_counterOf,
    getCount_counterOf]
  tauto

/-! ### Helper lemmas about the stable descending sort -/

theorem mem_insertDesc (x a : String × Nat) (l : List (String × Nat)) :
    a ∈ insertDesc x l ↔ a = x ∨ a ∈ l := by
  induction l with
  | nil => simp [insertDesc]
  | cons y ys ih =>
    by_cases hy : x.2 < y.2
    · simp only [insertDesc, if_pos hy, List.mem_cons, ih]
      tauto
    · simp [insertDesc, hy]

theorem perm_insertDesc (x : String × Nat) (l : List (String × Nat)) :
    List.Perm (insertDesc x l) (x :: l) := by
  induction l with
  | nil => exact List.Perm.refl _
  | cons y ys ih =>
    by_cases hy : x.2 < y.2
    · simp only [insertDesc, if_pos hy]
      exact (ih.cons y).trans (List.Perm.swap x y ys)
    · simp only [insertDesc, if_neg hy]
      exact List.Perm.refl _

theorem perm_sortDesc (l : List (String × Nat)) : List.Perm (sortDesc l) l := by
  induction l with
  | nil => exact List.Perm.refl _
  | cons x xs ih => exact (perm_insertDesc x (sortDesc xs)).trans (ih.cons x)

theorem mem_sortDesc (a : String × Nat) (l : List (String × Nat)) :
    a ∈ sortDesc l ↔ a ∈ l :=
  (perm_sortDesc l).mem_iff

theorem pairwise_insertDesc (x : String × Nat) (l : List (String × Nat))
    (h : l.Pairwise (fun a b => b.2 ≤ a.2)) :
    (insertDesc x l).Pairwise (fun a b => b.2 ≤ a.2) := by
  induction l with
  | nil => simp [insertDesc]
  | cons y ys ih =>
    rw [List.pairwise_cons] at h
    by_cases hy : x.2 < y.2
    · simp only [insertDesc, if_pos hy, List.pairwise_cons]
      refine ⟨?_, ih h.2⟩
      intro z hz
      rcases (mem_insertDesc x z ys).mp hz with rfl | hz2
      · exact Nat.le_of_lt hy
      · exact h.1 z hz2
    · have hxy : y.2 ≤ x.2 := Nat.le_of_not_lt hy
      simp only [insertDesc, if_neg hy, List.pairwise_cons]
      refine ⟨?_, h.1, h.2⟩
      intro z hz
      rcases List.mem_cons.mp hz with rfl | hz2
      · exact hxy
      · exact Nat.le_trans (h.1 z hz2) hxy

theorem pairwise_sortDesc (l : List (String × Nat)) :
    (sortDesc l).Pairwise (fun a b => b.2 ≤ a.2) := by
  induction l with
  | nil => simp [sortDesc]
  | cons x xs ih => exact pairwise_insertDesc x (sortDesc xs) ih

/-! ### Helper lemmas about `freq_list` -/

theorem mem_freq_list (ws : List String) (mc : Int) (w : String) (n : Nat) :
    (w, n) ∈ freq_list ws mc ↔ w ∈ ws ∧ n = ws.count w ∧ mc ≤ (n : Int) := by
  unfold freq_list
  rw [mem_sortDesc, List.mem_filter]
  simp only [decide_eq_true_eq, mem_counterOf]
  tauto

theorem nodup_keys_freq_list (ws : List String) (mc : Int) :
    ((freq_list ws mc).map Prod.fst).Nodup := by
  unfold freq_list
  have hperm :
      List.Perm
        ((sortDesc ((counterOf ws).filter (fun p => decide (mc ≤ (p.2 : Int))))).map Prod.fst)
        (((counterOf ws).filter (fun p => decide (mc ≤ (p.2 : Int)))).map Prod.fst) :=
    (perm_sortDesc _).map Prod.fst
  refine hperm.nodup_iff.mpr ?_
  have hsub :
      List.Sublist
        (((counterOf ws).filter (fun p => decide (mc ≤ (p.2 : Int)))).map Prod.fst)
        ((counterOf ws).map Prod.fst) :=
    ((counterOf ws).filter_sublist).map Prod.fst
  exact (nodup_keysOf_counterOf ws).sublist hsub

theorem pairwise_freq_list (ws : List String) (mc : Int) :
    (freq_list ws mc).Pairwise (fun a b => b.2 ≤ a.2) := by
  unfold freq_list
  exact pairwise_sortDesc _

/-! ### Helper lemmas about `filter_and_bucket` -/

theorem filter_and_bucket_cons (t : Token) (ts : List Token) (ml : Nat) :
    filter_and_bucket (t :: ts) ml =
      match classifyToken t ml with
      | BucketChoice.noun s =>
        (s :: (filter_and_bucket ts ml).1, (filter_and_bucket ts ml).2)
      | BucketChoice.pred s =>
        ((filter_and_bucket ts ml).1, s :: (filter_and_bucket ts ml).2)
      | BucketChoice.skip => filter_and_bucket ts ml := rfl

theorem mem_nouns_iff (ts : List Token) (ml : Nat) (s : String) :
    s ∈ (filter_and_bucket ts ml).1 ↔
      ∃ t, t ∈ ts ∧ classifyToken t ml = BucketChoice.noun s := by
  induction ts with
  | nil => simp [filter_and_bucket]
  | cons t ts ih =>
    rw [filter_and_bucket_cons]
    cases h : classifyToken t ml with
    | noun s2 =>
      dsimp only
      simp only [List.mem_cons, ih]
      constructor
      · rintro (rfl | ⟨u, hu, hc⟩)
        · exact ⟨t, Or.inl rfl, h⟩
        · exact ⟨u, Or.inr hu, hc⟩
      · rintro ⟨u, (rfl | hu), hc⟩
        · rw [h] at hc; cases hc; exact Or.inl rfl
        · exact Or.inr ⟨u, hu, hc⟩
    | pred s2 =>
      dsimp only
      rw [ih]
      constructor
      · rintro ⟨u, hu, hc⟩; exact ⟨u, List.mem_cons_of_mem _ hu, hc⟩
      · rintro ⟨u, hu, hc⟩
        rcases List.mem_cons.mp hu with rfl | hu2
        · rw [h] at hc; cases hc
        · exact ⟨u, hu2, hc⟩
    | skip =>
      rw [ih]
      constructor
      · rintro ⟨u, hu, hc⟩; exact ⟨u, List.mem_cons_of_mem _ hu, hc⟩
      · rintro ⟨u, hu, hc⟩
        rcases List.mem_cons.mp hu with rfl | hu2
        · rw [h] at hc; cases hc
        · exact ⟨u, hu2, hc⟩

theorem mem_preds_iff (ts : List Token) (ml : Nat) (s : String) :
    s ∈ (filter_and_bucket ts ml).2 ↔
      ∃ t, t ∈ ts ∧ classifyToken t ml = BucketChoice.pred s := by
  induction ts with
  | nil => simp [filter_and_bucket]
  | cons t ts ih =>
    rw [filter_and_bucket_cons]
    cases h : classifyToken t ml with
    | pred s2 =>
      dsimp only
      simp only [List.mem_cons, ih]
      constructor
      · rintro (rfl | ⟨u, hu, hc⟩)
        · exact ⟨t, Or.inl rfl, h⟩
        · exact ⟨u, Or.inr hu, hc⟩
      · rintro ⟨u, (rfl | hu), hc⟩
        · rw [h] at hc; cases hc; exact Or.inl rfl
        · exact Or.inr ⟨u, hu, hc⟩
    | noun s2 =>
      dsimp only
      rw [ih]
      constructor
      · rintro ⟨u, hu, hc⟩; exact ⟨u, List.mem_cons_of_mem _ hu, hc⟩
      · rintro ⟨u, hu, hc⟩
        rcases List.mem_cons.mp hu with rfl | hu2
        · rw [h] at hc; cases hc
        · exact ⟨u, hu2, hc⟩
    | skip =>
      rw [ih]
      constructor
      · rintro ⟨u, hu, hc⟩; exact ⟨u, List.mem_cons_of_mem _ hu, hc⟩
      · rintro ⟨u, hu, hc⟩
        rcases List.mem_cons.mp hu with rfl | hu2
        · rw [h] at hc; cases hc
        · exact ⟨u, hu2, hc⟩

theorem classifyToken_noun_inv (t : Token) (ml : Nat) (s : String)
    (h : classifyToken t ml = BucketChoice.noun s) :
    s = procLemma t ∧ procLemma t ∉ STOPWORDS ∧ ml ≤ (procLemma t).length ∧
      (startsWithStr (posU t) "NN" = true ∨ posU t ∈ ["NP", "NR", "SL", "SH"]) := by
  unfold classifyToken at h
  split at h
  · exact absurd h (by simp)
  split at h
  · exact absurd h (by simp)
  split at h
  · exact absurd h (by simp)
  split at h
  · rename_i h1 h2 h3 h4
    split at h
    · rename_i h5
      cases h
      exact ⟨rfl, h3, h5, h4⟩
    · exact absurd h (by simp)
  · split at h
    · split at h
      · exact absurd h (by simp)
      split at h
      · exact absurd h (by simp)
      · exact absurd h (by simp)
    · exact absurd h (by simp)

theorem classifyToken_pred_inv (t : Token) (ml : Nat) (s : String)
    (h : classifyToken t ml = BucketChoice.pred s) :
    s = basicForm t ∧ basicForm t ∉ STOPWORDS ∧ ml ≤ (basicForm t).length ∧
      (startsWithStr (posU t) "VV" = true ∨ startsWithStr (posU t) "VA" = true) := by
  unfold classifyToken at h
  split at h
  · exact absurd h (by simp)
  split at h
  · exact absurd h (by simp)
  split at h
  · exact absurd h (by simp)
  split at h
  · split at h
    · exact absurd h (by simp)
    · exact absurd h (by simp)
  · split at h
    · rename_i h5
      split at h
      · exact absurd h (by simp)
      split at h
      · rename_i h6 h7
        cases h
        exact ⟨rfl, h6, h7, h5⟩
      · exact absurd h (by simp)
    · exact absurd h (by simp)

theorem classifyToken_eq_noun (t : Token) (ml : Nat)
    (h1 : procLemma t ≠ "") (h2 : procLemma t ≠ "*")
    (h3 : ¬(posU t ∈ EXCLUDE_EXACT ∨ (excludePos.any fun p => startsWithStr (posU t) p) = true))
    (h4 : procLemma t ∉ STOPWORDS)
    (h5 : startsWithStr (posU t) "NN" = true ∨ posU t ∈ ["NP", "NR", "SL", "SH"])
    (h6 : ml ≤ (procLemma t).length) :
    classifyToken t ml = BucketChoice.noun (procLemma t) := by
  unfold classifyToken
  rw [if_neg (by simp [h1, h2]), if_neg h3, if_neg h4, if_pos h5, if_pos h6]

theorem classifyToken_eq_pred (t : Token) (ml : Nat)
    (h1 : procLemma t ≠ "") (h2 : procLemma t ≠ "*")
    (h3 : ¬(posU t ∈ EXCLUDE_EXACT ∨ (excludePos.any fun p => startsWithStr (posU t) p) = true))
    (h4 : procLemma t ∉ STOPWORDS)
    (h5 : ¬(startsWithStr (posU t) "NN" = true ∨ posU t ∈ ["NP", "NR", "SL", "SH"]))
    (h6 : startsWithStr (posU t) "VV" = true ∨ startsWithStr (posU t) "VA" = true)
    (h7 : basicForm t ∉ STOPWORDS)
    (h8 : ml ≤ (basicForm t).length) :
    classifyToken t ml = BucketChoice.pred (basicForm t) := by
  unfold classifyToken
  rw [if_neg (by simp [h1, h2]), if_neg h3, if_neg h4, if_neg h5, if_pos h6,
    if_neg h7, if_pos h8]

/-! ### Claim theorems -/

/-- C2: `mecab_parse` attempts the tabular (csv) mode first — a csv attempt
fails exactly when the process exited nonzero or printed only whitespace —
and only on csv failure attempts the custom-format (tsv) mode, exactly once;
when both modes fail it propagates an error to the caller instead of
returning an empty token sequence. -/
theorem mecab_parse_mode_order (env : MecabEnv) :
    ((∃ e, mecab_run_csv env = Except.error e) ↔
      (env.csv.returncode ≠ 0 ∨ strip env.csv.stdout = "")) ∧
    (∀ raw, mecab_run_csv env = Except.ok raw →
      mecab_parse env = Except.ok (parseCsvLines (strSplitOn raw '\n'))) ∧
    (∀ e raw, mecab_run_csv env = Except.error e → mecab_run_tsv env = Except.ok raw →
      mecab_parse env = Except.ok (parseTsvLines (strSplitOn raw '\n'))) ∧
    (∀ e e2, mecab_run_csv env = Except.error e → mecab_run_tsv env = Except.error e2 →
      mecab_parse env = Except.error e2) := by
  refine ⟨?_, ?_, ?_, ?_⟩
  · by_cases hc : env.csv.returncode ≠ 0 ∨ strip env.csv.stdout = ""
    · simp [mecab_run_csv, hc]
    · simp [mecab_run_csv, hc]
  · intro raw h
    unfold mecab_parse
    rw [h]
  · intro e raw h1 h2
    unfold mecab_parse
    rw [h1, h2]
  · intro e e2 h1 h2
    unfold mecab_parse
    rw [h1, h2]

/-- Witness for `mecab_parse_mode_order`: with both invocation modes failing
(nonzero exit status), `mecab_parse` returns an error rather than an empty
token list. -/
theorem mecab_parse_mode_order_witness :
    ∃ e, mecab_parse ⟨⟨1, "", "boom"⟩, ⟨1, "", "tsvboom"⟩⟩ = Except.error e :=
  ⟨_, (mecab_parse_mode_order ⟨⟨1, "", "boom"⟩, ⟨1, "", "tsvboom"⟩⟩).2.2.2 _ _ rfl rfl⟩

/-- C3: `freq_list` returns exactly one entry `(w, c)` for each distinct word
`w` of the input whose occurrence count `c` reaches `min_count` (and no entry
for any other word, no word twice), sorted in non-increasing order of count. -/
theorem freq_list_spec (ws : List String) (mc : Int) :
    (∀ w, w ∈ ws → mc ≤ (ws.count w : Int) → (w, ws.count w) ∈ freq_list ws mc) ∧
    (∀ w c, (w, c) ∈ freq_list ws mc → w ∈ ws ∧ c = ws.count w ∧ mc ≤ (c : Int)) ∧
    ((freq_list ws mc).map Prod.fst).Nodup ∧
    (freq_list ws mc).Pairwise (fun a b => b.2 ≤ a.2) := by
  refine ⟨?_, ?_, nodup_keys_freq_list ws mc, pairwise_freq_list ws mc⟩
  · intro w hw hcount
    exact (mem_freq_list ws mc w _).mpr ⟨hw, rfl, hcount⟩
  · intro w c h
    exact (mem_freq_list ws mc w c).mp h

/-- Witness for `freq_list_spec` at a concrete word list and threshold. -/
theorem freq_list_spec_witness :
    (("가", ["가", "나", "가"].count "가") ∈ freq_list ["가", "나", "가"] 2) ∧
    (freq_list ["가", "나", "가"] 2).Pairwise (fun a b => b.2 ≤ a.2) :=
  ⟨(freq_list_spec ["가", "나", "가"] 2).1 "가" (by decide) (by decide),
   (freq_list_spec ["가", "나", "가"] 2).2.2.2⟩

/-- C9: raising the threshold shrinks the result: every entry returned by
`freq_list` at threshold `m2` is also returned at any threshold `m1 ≤ m2`. -/
theorem freq_list_threshold_mono (ws : List String) (m1 m2 : Int) (h : m1 ≤ m2)
    (e : String × Nat) (he : e ∈ freq_list ws m2) : e ∈ freq_list ws m1 := by
  obtain ⟨w, c⟩ := e
  obtain ⟨hw, hc, hm⟩ := (mem_freq_list ws m2 w c).mp he
  exact (mem_freq_list ws m1 w c).mpr ⟨hw, hc, le_trans h hm⟩

/-- Witness for `freq_list_threshold_mono` at a concrete list and thresholds. -/
theorem freq_list_threshold_mono_witness :
    ("가", 2) ∈ freq_list ["가", "가", "나"] 1 :=
  freq_list_threshold_mono ["가", "가", "나"] 1 2 (by decide) ("가", 2) (by decide)

/-- C7: a word of the stopword set never appears in either bucket of
`filter_and_bucket` (for predicates the set is checked both on the raw lemma
and on the reconstructed dictionary form), hence never in either `freq_list`
output of `analyze_api`. -/
theorem stopword_exclusion (ts : List Token) (ml : Nat) (mf : Int) (w : String)
    (hw : w ∈ STOPWORDS) :
    w ∉ (filter_and_bucket ts ml).1 ∧ w ∉ (filter_and_bucket ts ml).2 ∧
    ∀ c : Nat, (w, c) ∉ freq_list (filter_and_bucket ts ml).1 mf ∧
      (w, c) ∉ freq_list (filter_and_bucket ts ml).2 mf := by
  have hn : w ∉ (filter_and_bucket ts ml).1 := by
    intro hmem
    obtain ⟨t, _, hc⟩ := (mem_nouns_iff ts ml w).mp hmem
    obtain ⟨rfl, hns, -, -⟩ := classifyToken_noun_inv t ml w hc
    exact hns hw
  have hp : w ∉ (filter_and_bucket ts ml).2 := by
    intro hmem
    obtain ⟨t, -, hc⟩ := (mem_preds_iff ts ml w).mp hmem
    obtain ⟨rfl, hns, -, -⟩ := classifyToken_pred_inv t ml w hc
    exact hns hw
  refine ⟨hn, hp, fun c => ⟨?_, ?_⟩⟩
  · intro hmem
    exact hn ((mem_freq_list _ mf w c).mp hmem).1
  · intro hmem
    exact hp ((mem_freq_list _ mf w c).mp hmem).1

/-- Witness for `stopword_exclusion`: 하다 (the dictionary form reconstructed
from the stem 하 tagged VV) is excluded from the predicates bucket. -/
theorem stopword_exclusion_witness :
    "하다" ∉ (filter_and_bucket [⟨"하", "VV", "하"⟩] 2).2 :=
  (stopword_exclusion [⟨"하", "VV", "하"⟩] 2 5 "하다" (by decide)).2.1

/-- C6: every entry of the predicates bucket comes from a verb- or
adjective-tagged token, and equals the token's lemma with 다 appended exactly
when that lemma contains a Hangul syllable and does not already end in 다,
and the unchanged lemma in every other case. -/
theorem pred_suffix_reconstruction (ts : List Token) (ml : Nat) (w : String)
    (h : w ∈ (filter_and_bucket ts ml).2) :
    ∃ t, t ∈ ts ∧
      (startsWithStr (posU t) "VV" = true ∨ startsWithStr (posU t) "VA" = true) ∧
      (hasHangul (procLemma t) = true ∧ endsWithStr (procLemma t) "다" = false →
        w = procLemma t ++ "다") ∧
      (hasHangul (procLemma t) = false ∨ endsWithStr (procLemma t) "다" = true →
        w = procLemma t) := by
  obtain ⟨t, ht, hc⟩ := (mem_preds_iff ts ml w).mp h
  obtain ⟨rfl, -, -, hv⟩ := classifyToken_pred_inv t ml w hc
  refine ⟨t, ht, hv, ?_, ?_⟩
  · rintro ⟨hh, he⟩
    unfold basicForm
    rw [hh, he]
    simp
  · rintro (hh | he)
    · unfold basicForm
      rw [hh]
      simp
    · unfold basicForm
      rw [he]
      simp

/-- Witness for `pred_suffix_reconstruction`: the bucket entry 먹다 produced
from the VV-tagged stem 먹. -/
theorem pred_suffix_reconstruction_witness :
    ∃ t, t ∈ [(⟨"먹", "VV", "먹"⟩ : Token)] ∧
      (startsWithStr (posU t) "VV" = true ∨ startsWithStr (posU t) "VA" = true) ∧
      (hasHangul (procLemma t) = true ∧ endsWithStr (procLemma t) "다" = false →
        "먹다" = procLemma t ++ "다") ∧
      (hasHangul (procLemma t) = false ∨ endsWithStr (procLemma t) "다" = true →
        "먹다" = procLemma t) :=
  pred_suffix_reconstruction [⟨"먹", "VV", "먹"⟩] 2 "먹다" (by decide)

/-- C10: a token whose (stripped, uppercased) tag is exactly SL or SH is
classified as a noun: its processed lemma lands in the nouns bucket whenever
it is a genuine lemma (not empty, not the asterisk placeholder), reaches
`min_len`, and is not a stopword — no Hangul content is required. -/
theorem sl_sh_noun_bucket (ts : List Token) (ml : Nat) (t : Token)
    (ht : t ∈ ts) (hpos : posU t = "SL" ∨ posU t = "SH")
    (h0 : procLemma t ≠ "" ∧ procLemma t ≠ "*")
    (h1 : procLemma t ∉ STOPWORDS)
    (h2 : ml ≤ (procLemma t).length) :
    procLemma t ∈ (filter_and_bucket ts ml).1 := by
  refine (mem_nouns_iff ts ml _).mpr ⟨t, ht, ?_⟩
  rcases hpos with hp | hp
  · exact classifyToken_eq_noun t ml h0.1 h0.2 (by rw [hp]; decide) h1
      (by rw [hp]; decide) h2
  · exact classifyToken_eq_noun t ml h0.1 h0.2 (by rw [hp]; decide) h1
      (by rw [hp]; decide) h2

/-- Witness for `sl_sh_noun_bucket`: the SH-tagged Chinese-character lemma
漢字 enters the nouns bucket. -/
theorem sl_sh_noun_bucket_witness :
    procLemma ⟨"漢字", "SH", "漢字"⟩ ∈ (filter_and_bucket [⟨"漢字", "SH", "漢字"⟩] 2).1 :=
  sl_sh_noun_bucket [⟨"漢字", "SH", "漢字"⟩] 2 ⟨"漢字", "SH", "漢字"⟩ (by decide)
    (Or.inr (by decide)) (by decide) (by decide) (by decide)

/-- C1 counterexample: a non-empty Korean input (학교) whose only token
carries the UNKNOWN tag makes the full pipeline produce empty lists in both
categories, and `analyze_api` returns those two empty lists — no fallback
runs, although the spec's fallback extractor would have produced the
non-empty list [(학교, 1)]. -/
theorem analyze_api_no_fallback_cex :
    analyze_api ⟨⟨0, "학교,UNKNOWN\nEOS\n", ""⟩, ⟨1, "", ""⟩⟩ 1 = Except.ok ([], []) ∧
    ("학교" : String) ≠ "" ∧
    freq_list (fallback_extract "학교" 2) 1 = [("학교", 1)] := by
  refine ⟨rfl, by decide, rfl⟩

/-- C1 amended: `analyze_api` performs no fallback: whenever parsing succeeds
and the classifier's two buckets are both empty, the endpoint returns two
empty lists, even for non-empty Korean input. -/
theorem analyze_api_empty_buckets (env : MecabEnv) (mf : Int) (toks : List Token)
    (h1 : mecab_parse env = Except.ok toks)
    (h2 : filter_and_bucket toks 2 = ([], [])) :
    analyze_api env mf = Except.ok ([], []) := by
  unfold analyze_api
  rw [h1]
  dsimp only
  rw [h2]
  rfl

/-- Witness for `analyze_api_empty_buckets`: a request whose only token is
the particle 은 (tag JX, excluded) yields two empty lists. -/
theorem analyze_api_empty_buckets_witness :
    analyze_api ⟨⟨0, "은,JX\n", ""⟩, ⟨1, "", ""⟩⟩ 5 = Except.ok ([], []) :=
  analyze_api_empty_buckets ⟨⟨0, "은,JX\n", ""⟩, ⟨1, "", ""⟩⟩ 5
    [⟨"은", "JX", "은"⟩] rfl rfl

/-- C4 (code bug): a csv row whose 8th field is present but empty (`먹다,VV`
followed by six empty fields) produces a token whose lemma is the empty
string — the adapter fails to replace the empty placeholder by the surface
form 먹다, contradicting the invariant and the code's own comment. -/
theorem mecab_parse_empty_lemma_bug :
    mecab_parse ⟨⟨0, "먹다,VV,,,,,,\n", ""⟩, ⟨1, "", ""⟩⟩ =
      Except.ok [{ surface := "먹다", pos := "VV", «lemma» := "" }] := rfl

/-- C5 counterexample: the SL-tagged token `hello` puts the Hangul-free lemma
`hello` into the nouns bucket, refuting the claim that every bucketed lemma
contains a Hangul syllable. -/
theorem bucket_hangul_cex :
    "hello" ∈ (filter_and_bucket [⟨"hello", "SL", "hello"⟩] 2).1 ∧
    hasHangul "hello" = false := by
  refine ⟨by decide, by decide⟩

/-- C5 amended: no Hangul-content requirement is enforced on bucketed lemmas;
the Hangul test only decides the predicate suffix: a VV-tagged token whose
lemma contains no Hangul is emitted into the predicates bucket unchanged
(subject only to the length and stopword rules). -/
theorem bucket_no_hangul_requirement (ts : List Token) (ml : Nat) (t : Token)
    (ht : t ∈ ts) (hpos : posU t = "VV")
    (h0 : procLemma t ≠ "" ∧ procLemma t ≠ "*")
    (h1 : procLemma t ∉ STOPWORDS)
    (h2 : ml ≤ (procLemma t).length)
    (h3 : hasHangul (procLemma t) = false) :
    procLemma t ∈ (filter_and_bucket ts ml).2 := by
  have hbf : basicForm t = procLemma t := by
    unfold basicForm
    rw [h3]
    simp
  refine (mem_preds_iff ts ml _).mpr ⟨t, ht, ?_⟩
  have hc := classifyToken_eq_pred t ml h0.1 h0.2 (by rw [hpos]; decide) h1
    (by rw [hpos]; decide) (by rw [hpos]; decide) (by rw [hbf]; exact h1)
    (by rw [hbf]; exact h2)
  rw [hbf] at hc
  exact hc

/-- Witness for `bucket_no_hangul_requirement`: the Hangul-free VV lemma
`run` enters the predicates bucket unchanged. -/
theorem bucket_no_hangul_requirement_witness :
    procLemma ⟨"run", "VV", "run"⟩ ∈ (filter_and_bucket [⟨"run", "VV", "run"⟩] 2).2 :=
  bucket_no_hangul_requirement [⟨"run", "VV", "run"⟩] 2 ⟨"run", "VV", "run"⟩
    (by decide) (by decide) (by decide) (by decide) (by decide) (by decide)

/-- C8 counterexample: in csv mode the EOS marker row is not discarded:
`mecab_parse` turns it into the token (surface EOS, empty tag, lemma EOS),
which appears in the returned sequence. -/
theorem csv_eos_not_discarded_cex :
    mecab_parse ⟨⟨0, "학교,NNG\nEOS\n", ""⟩, ⟨1, "", ""⟩⟩ =
      Except.ok [⟨"학교", "NNG", "학교"⟩, ⟨"EOS", "", "EOS"⟩] ∧
    (⟨"EOS", "", "EOS"⟩ : Token) ∈ parseCsvLines (strSplitOn "학교,NNG\nEOS\n" '\n') := by
  refine ⟨rfl, by decide⟩

/-- C8 amended: only the custom-format (tsv) branch discards EOS marker
lines — removing them does not change its output — while the tabular (csv)
branch turns each EOS marker row into the token (EOS, empty tag, EOS). -/
theorem eos_discard_modes :
    (∀ ls : List String, parseTsvLines (ls.filter (fun l => l ≠ "EOS")) = parseTsvLines ls) ∧
    (∀ ls : List String, parseCsvLines ("EOS" :: ls) =
      (⟨"EOS", "", "EOS"⟩ : Token) :: parseCsvLines ls) := by
  constructor
  · intro ls
    induction ls with
    | nil => rfl
    | cons l ls ih =>
      by_cases hl : l = "EOS"
      · subst hl
        have hnone : tsvLineToken "EOS" = none := by decide
        simp only [List.filter_cons, decide_eq_true_eq, parseTsvLines,
          List.filterMap_cons, hnone, ih]
        simp [parseTsvLines] at ih ⊢
        exact ih
      · simp only [List.filter_cons]
        rw [if_pos (by simp [hl])]
        simp only [parseTsvLines, List.filterMap_cons] at ih ⊢
        cases htok : tsvLineToken l <;> rw [ih]
  · intro ls
    have hsome : csvRowToken (parseCsvRow "EOS") = some ⟨"EOS", "", "EOS"⟩ := by decide
    simp only [parseCsvLines, List.filterMap_cons, hsome]
